import Mathlib

/-!
Verification of the AddPay Go client's RSA authentication core
(`auth/rsa.go`) against its natural-language specification.

The Go source is shallowly embedded: byte slices become `List Nat`
(each element a byte value), `map[string]interface{}` becomes an
association list over an inductive `GoValue`, fallible functions return
`Except ErrKind _`, and the external `crypto/x509` / `encoding/pem`
structure parsers (whose internals are not part of this repository) are
abstracted as a record of parser functions `X509Lib`.  `crypto/rand`'s
global reader is modelled as an explicit byte stream `Nat → Nat`
argument on the operations whose Go implementation reads from it.
-/

/-- Error kinds of the spec's error taxonomy (§7).  The Go code returns
wrapped `fmt.Errorf` strings; each return site maps to exactly one of
these kinds. -/
inductive ErrKind where
  | emptyKey
  | invalidEncoding
  | unsupportedStructure
  | wrongAlgorithm
  | signingFailure
  | verificationFailed
  | encryptionFailure
  | decryptionFailure
deriving DecidableEq, Repr

instance {ε α : Type} [DecidableEq ε] [DecidableEq α] : DecidableEq (Except ε α) := fun a b =>
  match a, b with
  | .ok x, .ok y =>
      if h : x = y then .isTrue (by rw [h]) else .isFalse (by intro hc; cases hc; exact h rfl)
  | .error x, .error y =>
      if h : x = y then .isTrue (by rw [h]) else .isFalse (by intro hc; cases hc; exact h rfl)
  | .ok _, .error _ => .isFalse (by intro hc; cases hc)
  | .error _, .ok _ => .isFalse (by intro hc; cases hc)

/-- UTF-8 encoding of a single character (the byte sequence Go produces
for one rune in a `string`). -/
def utf8EncodeChar (c : Char) : List Nat :=
  let n := c.toNat
  if n < 128 then [n]
  else if n < 2048 then [192 + n / 64, 128 + n % 64]
  else if n < 65536 then [224 + n / 4096, 128 + n / 64 % 64, 128 + n % 64]
  else [240 + n / 262144, 128 + n / 4096 % 64, 128 + n / 64 % 64, 128 + n % 64]

/-- Byte content of a Go string: UTF-8 bytes of its characters (what
`[]byte(s)` yields). -/
def utf8Bytes (s : String) : List Nat :=
  s.data.flatMap utf8EncodeChar

/-- Alphabet of `encoding/base64.StdEncoding`. -/
def base64Alphabet : List Char :=
  ['A', 'B', 'C', 'D', 'E', 'F', 'G', 'H', 'I', 'J', 'K', 'L', 'M',
   'N', 'O', 'P', 'Q', 'R', 'S', 'T', 'U', 'V', 'W', 'X', 'Y', 'Z',
   'a', 'b', 'c', 'd', 'e', 'f', 'g', 'h', 'i', 'j', 'k', 'l', 'm',
   'n', 'o', 'p', 'q', 'r', 's', 't', 'u', 'v', 'w', 'x', 'y', 'z',
   '0', '1', '2', '3', '4', '5', '6', '7', '8', '9', '+', '/']

/-- Character for a 6-bit group. -/
def b64Char (i : Nat) : Char := base64Alphabet.getD i 'A'

/-- Standard base64 encoding of a byte list, three bytes at a time with
`=` padding, as `base64.StdEncoding.EncodeToString` produces. -/
def base64EncodeAux : List Nat → List Char
  | [] => []
  | [b1] => [b64Char (b1 / 4), b64Char (b1 % 4 * 16), '=', '=']
  | [b1, b2] => [b64Char (b1 / 4), b64Char (b1 % 4 * 16 + b2 / 16), b64Char (b2 % 16 * 4), '=']
  | b1 :: b2 :: b3 :: rest =>
      b64Char (b1 / 4) :: b64Char (b1 % 4 * 16 + b2 / 16) ::
      b64Char (b2 % 16 * 4 + b3 / 64) :: b64Char (b3 % 64) :: base64EncodeAux rest

/-- Go's `base64.StdEncoding.EncodeToString`. -/
def base64Encode (bs : List Nat) : String := String.mk (base64EncodeAux bs)

/-- Value of one base64 character, `none` for characters outside the
standard alphabet (including `=`). -/
def b64CharVal (c : Char) : Option Nat :=
  let i := base64Alphabet.indexOf c
  if i < 64 then some i else none

/-- Decoding of a base64 character stream in groups of four, allowing
`=` padding only at the very end; any other character (after newline
stripping, handled by the caller) is rejected, as
`base64.StdEncoding.DecodeString` does. -/
def base64DecodeAux : List Char → Option (List Nat)
  | [] => some []
  | c1 :: c2 :: c3 :: c4 :: rest =>
      if rest = [] ∧ c3 = '=' ∧ c4 = '=' then do
        let i1 ← b64CharVal c1
        let i2 ← b64CharVal c2
        pure [i1 * 4 + i2 / 16]
      else if rest = [] ∧ c4 = '=' then do
        let i1 ← b64CharVal c1
        let i2 ← b64CharVal c2
        let i3 ← b64CharVal c3
        pure [i1 * 4 + i2 / 16, i2 % 16 * 16 + i3 / 4]
      else do
        let i1 ← b64CharVal c1
        let i2 ← b64CharVal c2
        let i3 ← b64CharVal c3
        let i4 ← b64CharVal c4
        let tail ← base64DecodeAux rest
        pure ((i1 * 4 + i2 / 16) :: (i2 % 16 * 16 + i3 / 4) :: (i3 % 4 * 64 + i4) :: tail)
  | _ => none

/-- Go's `base64.StdEncoding.DecodeString`: newline characters are
ignored, everything else must be alphabet characters in groups of four
with trailing `=` padding. -/
def base64Decode (s : String) : Option (List Nat) :=
  base64DecodeAux (s.data.filter fun c => c ≠ '\n' ∧ c ≠ '\r')

/-- Big-endian interpretation of a byte list as a natural number
(RFC 8017 OS2IP, what `new(big.Int).SetBytes` computes). -/
def os2ip (bs : List Nat) : Nat := bs.foldl (fun a b => a * 256 + b) 0

/-- Big-endian encoding of a natural number into a fixed number of
bytes (RFC 8017 I2OSP, what `big.Int.FillBytes` computes). -/
def i2osp : Nat → Nat → List Nat
  | _, 0 => []
  | x, k + 1 => i2osp (x / 256) k ++ [x % 256]

/-- Reduction modulo 2^32, the word size of SHA-256 arithmetic. -/
def m32 (x : Nat) : Nat := x % 4294967296

/-- Rotation of a 32-bit word right by `n` bits. -/
def rotr32 (n x : Nat) : Nat := m32 (x / 2 ^ n + x % 2 ^ n * 2 ^ (32 - n))

/-- SHA-256 round constants. -/
def shaK : List Nat :=
  [1116352408, 1899447441, 3049323471, 3921009573, 961987163, 1508970993,
   2453635748, 2870763221, 3624381080, 310598401, 607225278, 1426881987,
   1925078388, 2162078206, 2614888103, 3248222580, 3835390401, 4022224774,
   264347078, 604807628, 770255983, 1249150122, 1555081692, 1996064986,
   2554220882, 2821834349, 2952996808, 3210313671, 3336571891, 3584528711,
   113926993, 338241895, 666307205, 773529912, 1294757372, 1396182291,
   1695183700, 1986661051, 2177026350, 2456956037, 2730485921, 2820302411,
   3259730800, 3345764771, 3516065817, 3600352804, 4094571909, 275423344,
   430227734, 506948616, 659060556, 883997877, 958139571, 1322822218,
   1537002063, 1747873779, 1955562222, 2024104815, 2227730452, 2361852424,
   2428436474, 2756734187, 3204031479, 3329325298]

/-- Working state of the SHA-256 compression function. -/
structure SHAState where
  a : Nat
  b : Nat
  c : Nat
  d : Nat
  e : Nat
  f : Nat
  g : Nat
  h : Nat

/-- Initial SHA-256 hash state. -/
def shaInit : SHAState :=
  ⟨1779033703, 3144134277, 1013904242, 2773480762, 1359893119, 2600822924, 528734635, 1541459225⟩

/-- One round of the SHA-256 compression function, consuming one round
constant and one message-schedule word. -/
def shaRound (st : SHAState) (kw : Nat × Nat) : SHAState :=
  let s1 := rotr32 6 st.e ^^^ rotr32 11 st.e ^^^ rotr32 25 st.e
  let ch := st.e &&& st.f ^^^ (4294967295 - st.e) &&& st.g
  let t1 := m32 (st.h + s1 + ch + kw.1 + kw.2)
  let s0 := rotr32 2 st.a ^^^ rotr32 13 st.a ^^^ rotr32 22 st.a
  let mj := st.a &&& st.b ^^^ st.a &&& st.c ^^^ st.b &&& st.c
  let t2 := m32 (s0 + mj)
  ⟨m32 (t1 + t2), st.a, st.b, st.c, m32 (st.d + t1), st.e, st.f, st.g⟩

/-- Message-schedule extension: `acc` holds the words produced so far,
most recent first; 48 extension steps turn the 16 block words into the
full 64-word schedule. -/
def shaSchedAux : Nat → List Nat → List Nat
  | 0, acc => acc
  | t + 1, acc =>
      let w2 := acc.getD 1 0
      let w7 := acc.getD 6 0
      let w15 := acc.getD 14 0
      let w16 := acc.getD 15 0
      let s0 := rotr32 7 w15 ^^^ rotr32 18 w15 ^^^ w15 / 8
      let s1 := rotr32 17 w2 ^^^ rotr32 19 w2 ^^^ w2 / 1024
      shaSchedAux t (m32 (s1 + w7 + s0 + w16) :: acc)

/-- Big-endian packing of bytes into 32-bit words. -/
def bytesToWords : List Nat → List Nat
  | b1 :: b2 :: b3 :: b4 :: rest => (b1 * 16777216 + b2 * 65536 + b3 * 256 + b4) :: bytesToWords rest
  | _ => []

/-- Processing of one 64-byte block. -/
def shaBlock (st : SHAState) (block : List Nat) : SHAState :=
  let w16 := bytesToWords block
  let ws := (shaSchedAux 48 w16.reverse).reverse
  let t := (shaK.zip ws).foldl shaRound st
  ⟨m32 (st.a + t.a), m32 (st.b + t.b), m32 (st.c + t.c), m32 (st.d + t.d),
   m32 (st.e + t.e), m32 (st.f + t.f), m32 (st.g + t.g), m32 (st.h + t.h)⟩

/-- SHA-256 padding: a `0x80` byte, zeros up to 56 mod 64, then the
bit length in eight big-endian bytes. -/
def shaPad (msg : List Nat) : List Nat :=
  msg ++ 128 :: List.replicate ((119 - msg.length % 64) % 64) 0 ++ i2osp (msg.length * 8) 8

/-- Splitting into 64-byte blocks, with an explicit fuel argument to
keep the recursion structural. -/
def toBlocksAux : Nat → List Nat → List (List Nat)
  | 0, _ => []
  | _, [] => []
  | fuel + 1, l => l.take 64 :: toBlocksAux fuel (l.drop 64)

/-- Big-endian serialization of one hash word. -/
def wordBytes (w : Nat) : List Nat :=
  [w / 16777216 % 256, w / 65536 % 256, w / 256 % 256, w % 256]

/-- Serialization of the final hash state. -/
def shaOut (st : SHAState) : List Nat :=
  wordBytes st.a ++ wordBytes st.b ++ wordBytes st.c ++ wordBytes st.d ++
  wordBytes st.e ++ wordBytes st.f ++ wordBytes st.g ++ wordBytes st.h

/-- SHA-256 of a byte list, as Go's `sha256.Sum256`. -/
def sha256 (msg : List Nat) : List Nat :=
  let padded := shaPad msg
  shaOut ((toBlocksAux padded.length padded).foldl shaBlock shaInit)

example : sha256 [] =
    [227, 176, 196, 66, 152, 252, 28, 20, 154, 251, 244, 200, 153, 111, 185, 36,
     39, 174, 65, 228, 100, 155, 147, 76, 164, 149, 153, 27, 120, 82, 184, 85] := by
  decide

example : sha256 (utf8Bytes "abc") =
    [186, 120, 22, 191, 143, 1, 207, 234, 65, 65, 64, 222, 93, 174, 34, 35,
     176, 3, 97, 163, 150, 23, 122, 156, 180, 16, 255, 97, 242, 0, 21, 173] := by
  decide

/-- RSA public key, mirroring Go's `rsa.PublicKey` (modulus `n`, public
exponent `e`). -/
structure RSAPublicKey where
  n : Nat
  e : Nat
deriving DecidableEq

/-- RSA private key, mirroring Go's `rsa.PrivateKey`: embedded public
key plus the private exponent `d`. -/
structure RSAPrivateKey where
  pub : RSAPublicKey
  d : Nat
deriving DecidableEq

/-- The `auth.RSAAuth` handler: one private key and one public key. -/
structure RSAAuth where
  privateKey : RSAPrivateKey
  publicKey : RSAPublicKey

/-- Bit length of a natural number with explicit fuel, keeping the
recursion structural so it evaluates inside the kernel. -/
def bitLenAux : Nat → Nat → Nat
  | 0, _ => 0
  | fuel + 1, n => if n = 0 then 0 else bitLenAux fuel (n / 2) + 1

/-- Bit length, as Go's `big.Int.BitLen`. -/
def bitLen (n : Nat) : Nat := bitLenAux n n

/-- Modulus size in bytes, as Go's `rsa.PublicKey.Size()`:
`(BitLen + 7) / 8`. -/
def byteLen (n : Nat) : Nat := (bitLen n + 7) / 8

/-- Modular exponentiation, the raw RSA operation `b ^ e mod n`
performed by Go's `crypto/rsa` on `big.Int`/`bigmod` values. -/
def powMod (b e n : Nat) : Nat := b ^ e % n

/-- DER prefix of the PKCS#1 v1.5 `DigestInfo` for SHA-256 (the
`hashPrefixes[crypto.SHA256]` table entry in `crypto/rsa`). -/
def digestHead : List Nat :=
  [48, 49, 48, 13, 6, 9, 96, 134, 72, 1, 101, 3, 4, 2, 1, 5, 0, 4, 32]

/-- EMSA-PKCS1-v1_5 encoding of a SHA-256 digest into `k` bytes:
`00 01 FF..FF 00 DigestInfo`. -/
def emsaPkcs1v15 (hashed : List Nat) (k : Nat) : List Nat :=
  0 :: 1 :: (List.replicate (k - (digestHead.length + hashed.length) - 3) 255 ++
    0 :: (digestHead ++ hashed))

/-- Go's `rsa.SignPKCS1v15` for SHA-256 digests.  The random reader
argument models `crypto/rand.Reader`; the Go implementation uses it only
for blinding, so the produced signature does not depend on it, which the
embedding makes literal by ignoring it.  Fails when the modulus is
shorter than digest-info plus eleven padding bytes. -/
def signPKCS1v15 (rng : Nat → Nat) (priv : RSAPrivateKey) (hashed : List Nat) :
    Except ErrKind (List Nat) :=
  let _ := rng
  let tLen := digestHead.length + hashed.length
  let k := byteLen priv.pub.n
  if k < tLen + 11 then .error .signingFailure
  else
    let em := emsaPkcs1v15 hashed k
    .ok (i2osp (powMod (os2ip em) priv.d priv.pub.n) k)

/-- The `RSAAuth.Sign` method: SHA-256 digest, PKCS#1 v1.5 signature
with the private key, base64 output. -/
def RSAAuth.Sign (r : RSAAuth) (data : List Nat) : Except ErrKind String :=
  match signPKCS1v15 (fun _ => 0) r.privateKey (sha256 data) with
  | .error e => .error e
  | .ok sig => .ok (base64Encode sig)

/-- Go's `rsa.VerifyPKCS1v15` for SHA-256 digests: checks the digest
length, the modulus size, the signature length, and that the public-key
power of the signature equals the expected encoded message. -/
def verifyPKCS1v15 (pub : RSAPublicKey) (hashed sig : List Nat) : Except ErrKind Unit :=
  if hashed.length ≠ 32 then .error .verificationFailed
  else
    let tLen := digestHead.length + hashed.length
    let k := byteLen pub.n
    if k < tLen + 11 then .error .verificationFailed
    else if sig.length ≠ k then .error .verificationFailed
    else
      let em := i2osp (powMod (os2ip sig) pub.e pub.n) k
      if em = emsaPkcs1v15 hashed k then .ok () else .error .verificationFailed

/-- The `RSAAuth.Verify` method: base64-decode the signature (a decode
failure is reported as its own error kind), then verify the SHA-256
digest of the payload against the public key. -/
def RSAAuth.Verify (r : RSAAuth) (data : List Nat) (signature : String) : Except ErrKind Unit :=
  match base64Decode signature with
  | none => .error .invalidEncoding
  | some sig => verifyPKCS1v15 r.publicKey (sha256 data) sig

/-- Padding bytes drawn from the random stream, adjusted to be nonzero:
models `crypto/rand`'s `nonZeroRandomBytes`, which produces uniformly
random nonzero bytes (only the nonzero-byte support matters here, not
the distribution). -/
def nonZeroRandomBytes (n : Nat) (rng : Nat → Nat) : List Nat :=
  (List.range n).map fun i => rng i % 255 + 1

/-- The `RSAAuth.Encrypt` method over Go's `rsa.EncryptPKCS1v15`:
rejects a message longer than `k - 11`, otherwise pads as
`00 02 PS 00 msg` with nonzero random `PS`, applies the public-key
power, and base64-encodes the `k`-byte ciphertext.  `rng` models the
process-global `crypto/rand.Reader`. -/
def RSAAuth.Encrypt (r : RSAAuth) (rng : Nat → Nat) (data : List Nat) :
    Except ErrKind String :=
  let k := byteLen r.publicKey.n
  if (data.length : Int) > (k : Int) - 11 then .error .encryptionFailure
  else
    let ps := nonZeroRandomBytes (k - data.length - 3) rng
    let em := 0 :: 2 :: (ps ++ 0 :: data)
    .ok (base64Encode (i2osp (powMod (os2ip em) r.publicKey.e r.publicKey.n) k))

/-- The `RSAAuth.Decrypt` method over Go's `rsa.DecryptPKCS1v15`:
base64-decode (its own error kind), reject moduli under eleven bytes and
ciphertext values at or above the modulus, apply the private-key power,
and strip the `00 02 PS 00` padding, requiring at least eight padding
bytes and a zero separator. -/
def RSAAuth.Decrypt (r : RSAAuth) (encryptedData : String) : Except ErrKind (List Nat) :=
  match base64Decode encryptedData with
  | none => .error .invalidEncoding
  | some bytes =>
    let nmod := r.privateKey.pub.n
    let k := byteLen nmod
    if k < 11 then .error .decryptionFailure
    else if nmod ≤ os2ip bytes then .error .decryptionFailure
    else
      match i2osp (powMod (os2ip bytes) r.privateKey.d nmod) k with
      | 0 :: 2 :: rest =>
          let i := rest.indexOf 0
          if i < 8 ∨ rest.length ≤ i then .error .decryptionFailure
          else .ok (rest.drop (i + 1))
      | _ => .error .decryptionFailure

/-- Values a caller can put in the `map[string]interface{}` parameter
map: the untyped nil interface, strings, integers, and booleans. -/
inductive GoValue where
  | vNil
  | vString (s : String)
  | vInt (i : Int)
  | vBool (b : Bool)
deriving DecidableEq, Repr

/-- Go's `fmt.Sprintf("%v", value)` on a `GoValue`: a nil interface
prints as `<nil>`, others use their default formatting. -/
def goString : GoValue → String
  | .vNil => "<nil>"
  | .vString s => s
  | .vInt i => toString i
  | .vBool true => "true"
  | .vBool false => "false"

/-- The `filterParameters` helper: skips the `sign` key and nil values,
converts the rest to strings, and keeps only those that are neither
empty nor `"0"`. -/
def filterParameters (params : List (String × GoValue)) : List (String × String) :=
  params.filterMap fun kv =>
    if kv.1 = "sign" ∨ kv.2 = .vNil then none
    else
      let strValue := goString kv.2
      if strValue ≠ "" ∧ strValue ≠ "0" then some (kv.1, strValue) else none

/-- Lexicographic comparison of character lists by codepoint.  Go
compares strings byte-wise over UTF-8, which orders strings exactly as
codepoint-wise comparison does, UTF-8 being order-preserving. -/
def strLeChars : List Char → List Char → Bool
  | [], _ => true
  | _ :: _, [] => false
  | c :: cs, d :: ds =>
      if c.toNat < d.toNat then true
      else if d.toNat < c.toNat then false
      else strLeChars cs ds

/-- Go's `<=` on strings. -/
def strLe (a b : String) : Bool := strLeChars a.data b.data

/-- Go's `sort.Strings`: ascending sort.  Since equal strings are
indistinguishable, every correct ascending sort produces the same
list; insertion sort is used so the definition evaluates inside the
kernel. -/
def sortStrings (l : List String) : List String :=
  l.insertionSort fun a b => strLe a b = true

/-- Upper-case hexadecimal digit, as `net/url` uses in percent
escapes. -/
def hexUpper (i : Nat) : Char :=
  ['0', '1', '2', '3', '4', '5', '6', '7', '8', '9', 'A', 'B', 'C', 'D', 'E', 'F'].getD i '0'

/-- Bytes that `net/url.shouldEscape` leaves untouched in a query
component: ASCII alphanumerics and `-`, `_`, `.`, `~`. -/
def urlUnreserved (b : Nat) : Bool :=
  (65 ≤ b ∧ b ≤ 90) ∨ (97 ≤ b ∧ b ≤ 122) ∨ (48 ≤ b ∧ b ≤ 57) ∨ b = 45 ∨ b = 95 ∨ b = 46 ∨ b = 126

/-- Go's `url.QueryEscape`, operating on the UTF-8 bytes of the string:
unreserved bytes pass through, space becomes `+`, everything else
becomes `%XX` with upper-case hex. -/
def queryEscape (s : String) : String :=
  String.mk ((utf8Bytes s).flatMap fun b =>
    if urlUnreserved b then [Char.ofNat b]
    else if b = 32 then ['+']
    else ['%', hexUpper (b / 16), hexUpper (b % 16)])

/-- Go's `url.Values.Add`: appends the value to the list at the key,
creating the key if absent (appended at the end; ordering is irrelevant
because `Encode` sorts). -/
def valuesAdd (vs : List (String × List String)) (k v : String) : List (String × List String) :=
  match vs with
  | [] => [(k, [v])]
  | (k0, l0) :: rest => if k0 = k then (k0, l0 ++ [v]) :: rest else (k0, l0) :: valuesAdd rest k v

/-- Go's `url.Values.Encode`: keys sorted ascending, each value emitted
as `escapedKey=escapedValue`, pairs joined with `&`. -/
def valuesEncode (vs : List (String × List String)) : String :=
  let keys := sortStrings (vs.map Prod.fst)
  String.intercalate "&" ((keys.map fun k =>
    ((vs.lookup k).getD []).map fun v => queryEscape k ++ "=" ++ queryEscape v).flatten)

/-- The `createSignString` helper: empty maps give the empty string;
otherwise the keys are sorted, loaded into a `url.Values`, and encoded. -/
def createSignString (params : List (String × String)) : String :=
  if params.length = 0 then ""
  else
    let keys := sortStrings (params.map Prod.fst)
    let values := keys.foldl (fun acc key => valuesAdd acc key ((params.lookup key).getD "")) []
    valuesEncode values

/-- The `RSAAuth.SignParameters` method: filter, canonicalize, sign the
canonical string's bytes. -/
def RSAAuth.SignParameters (r : RSAAuth) (params : List (String × GoValue)) :
    Except ErrKind String :=
  let filtered := filterParameters params
  let signString := createSignString filtered
  r.Sign (utf8Bytes signString)

/-- Result of `x509.ParsePKCS8PrivateKey`: some asymmetric private key,
RSA or otherwise. -/
inductive AnyPrivateKey where
  | rsa (k : RSAPrivateKey)
  | nonRSA
deriving DecidableEq

/-- Result of `x509.ParsePKIXPublicKey`: some asymmetric public key,
RSA or otherwise. -/
inductive AnyPublicKey where
  | rsa (k : RSAPublicKey)
  | nonRSA
deriving DecidableEq

/-- The external `encoding/pem` and `crypto/x509` structure parsers.
Their internals are standard-library code outside this repository, so
the embedding abstracts them as arbitrary functions: every theorem
about the key loader holds for every choice of these parsers.
`pemDecode` returns the DER bytes of the first PEM block, `none` when
no block is found; each `parse…` returns `none` on a structure that
does not parse. -/
structure X509Lib where
  pemDecode : String → Option (List Nat)
  parsePKCS1PrivateKey : List Nat → Option RSAPrivateKey
  parsePKCS8PrivateKey : List Nat → Option AnyPrivateKey
  parsePKIXPublicKey : List Nat → Option AnyPublicKey

/-- Characters trimmed by Go's `strings.TrimSpace` (`unicode.IsSpace`
in the Latin-1 range). -/
def isGoSpace (c : Char) : Bool :=
  c = ' ' ∨ c = '\t' ∨ c = '\n' ∨ c = Char.ofNat 11 ∨ c = Char.ofNat 12 ∨ c = '\r' ∨
  c = Char.ofNat 133 ∨ c = Char.ofNat 160

/-- Go's `strings.TrimSpace`. -/
def goTrimSpace (s : String) : String :=
  String.mk (((s.data.dropWhile isGoSpace).reverse.dropWhile isGoSpace).reverse)

/-- Go's `strings.HasPre…("-----BEGIN")` test, written over the
character list. -/
def hasPEMMarker (s : String) : Bool :=
  s.data.take 10 = "-----BEGIN".data

/-- The `parsePEMPrivateKey` helper: decode the PEM block, try PKCS#8
(rejecting non-RSA keys without falling back), then try PKCS#1. -/
def parsePEMPrivateKey (lib : X509Lib) (privateKeyPEM : String) : Except ErrKind RSAPrivateKey :=
  match lib.pemDecode privateKeyPEM with
  | none => .error .invalidEncoding
  | some block =>
    match lib.parsePKCS8PrivateKey block with
    | some (.rsa k) => .ok k
    | some .nonRSA => .error .wrongAlgorithm
    | none =>
      match lib.parsePKCS1PrivateKey block with
      | some k => .ok k
      | none => .error .unsupportedStructure

/-- The `parseBase64PKCS8PrivateKey` helper: base64-decode, try PKCS#1
first, then PKCS#8 (rejecting non-RSA keys). -/
def parseBase64PKCS8PrivateKey (lib : X509Lib) (base64Key : String) :
    Except ErrKind RSAPrivateKey :=
  match base64Decode base64Key with
  | none => .error .invalidEncoding
  | some keyBytes =>
    match lib.parsePKCS1PrivateKey keyBytes with
    | some k => .ok k
    | none =>
      match lib.parsePKCS8PrivateKey keyBytes with
      | none => .error .unsupportedStructure
      | some (.rsa k) => .ok k
      | some .nonRSA => .error .wrongAlgorithm

/-- The `parsePrivateKey` entry point: empty input is rejected first
(before trimming), then the trimmed text dispatches between the PEM
and raw-base64 paths.  The PEM path receives the original bytes, the
base64 path the trimmed text, as in the source. -/
def parsePrivateKey (lib : X509Lib) (privateKeyData : String) : Except ErrKind RSAPrivateKey :=
  if utf8Bytes privateKeyData = [] then .error .emptyKey
  else
    let keyStr := goTrimSpace privateKeyData
    if hasPEMMarker keyStr then parsePEMPrivateKey lib privateKeyData
    else parseBase64PKCS8PrivateKey lib keyStr

/-- The `parsePEMPublicKey` helper. -/
def parsePEMPublicKey (lib : X509Lib) (publicKeyPEM : String) : Except ErrKind RSAPublicKey :=
  match lib.pemDecode publicKeyPEM with
  | none => .error .invalidEncoding
  | some block =>
    match lib.parsePKIXPublicKey block with
    | none => .error .unsupportedStructure
    | some (.rsa k) => .ok k
    | some .nonRSA => .error .wrongAlgorithm

/-- The `parseBase64X509PublicKey` helper. -/
def parseBase64X509PublicKey (lib : X509Lib) (base64Key : String) :
    Except ErrKind RSAPublicKey :=
  match base64Decode base64Key with
  | none => .error .invalidEncoding
  | some keyBytes =>
    match lib.parsePKIXPublicKey keyBytes with
    | none => .error .unsupportedStructure
    | some (.rsa k) => .ok k
    | some .nonRSA => .error .wrongAlgorithm

/-- The `parsePublicKey` entry point, with the same dispatch as
`parsePrivateKey`. -/
def parsePublicKey (lib : X509Lib) (publicKeyData : String) : Except ErrKind RSAPublicKey :=
  if utf8Bytes publicKeyData = [] then .error .emptyKey
  else
    let keyStr := goTrimSpace publicKeyData
    if hasPEMMarker keyStr then parsePEMPublicKey lib publicKeyData
    else parseBase64X509PublicKey lib keyStr

/-- Canonicalization exactly as claim C1 words it: drop entries whose
key is `sign` and entries whose value stringifies to empty or `"0"`,
stringify the remaining values, sort the remaining keys ascending, and
join URL-form-encoded `key=value` pairs with `&`.  (Note: no clause
about nil values.) -/
def specCanonicalClaimC1 (params : List (String × GoValue)) : String :=
  let kept := params.filter fun kv => kv.1 ≠ "sign" ∧ goString kv.2 ≠ "" ∧ goString kv.2 ≠ "0"
  String.intercalate "&" ((sortStrings (kept.map Prod.fst)).map fun k =>
    queryEscape k ++ "=" ++ queryEscape (goString ((kept.lookup k).getD .vNil)))

/-- Canonicalization as the amended claim words it: additionally drop
entries whose value is the nil interface before any string
conversion. -/
def specCanonicalAmended (params : List (String × GoValue)) : String :=
  let kept := params.filter fun kv =>
    kv.1 ≠ "sign" ∧ kv.2 ≠ .vNil ∧ goString kv.2 ≠ "" ∧ goString kv.2 ≠ "0"
  String.intercalate "&" ((sortStrings (kept.map Prod.fst)).map fun k =>
    queryEscape k ++ "=" ++ queryEscape (goString ((kept.lookup k).getD .vNil)))

/-- Modelled from the spec (§4.1, claim C3): the private-key decision
tree as an ordered "first match wins" table.  On the PEM path both
structure parsers are consulted in PKCS#8-then-PKCS#1 order; on the
base64 path in PKCS#1-then-PKCS#8 order; a key that parses but is not
RSA is rejected. -/
def specLoadPrivateKey (lib : X509Lib) (raw : String) : Except ErrKind RSAPrivateKey :=
  if hasPEMMarker (goTrimSpace raw) then
    match lib.pemDecode raw with
    | none => .error .invalidEncoding
    | some der =>
      match lib.parsePKCS8PrivateKey der, lib.parsePKCS1PrivateKey der with
      | some (.rsa k), _ => .ok k
      | some .nonRSA, _ => .error .wrongAlgorithm
      | none, some k => .ok k
      | none, none => .error .unsupportedStructure
  else
    match base64Decode (goTrimSpace raw) with
    | none => .error .invalidEncoding
    | some der =>
      match lib.parsePKCS1PrivateKey der, lib.parsePKCS8PrivateKey der with
      | some k, _ => .ok k
      | none, some (.rsa k) => .ok k
      | none, some .nonRSA => .error .wrongAlgorithm
      | none, none => .error .unsupportedStructure

/-- Prime factors of the concrete test modulus.  A product of many
small distinct primes is a legitimate (if insecure) RSA modulus: the
PKCS#1 v1.5 operations only need the modulus size and the inversion
property, which squarefreeness gives for all residues. -/
def bigPrimes : List Nat :=
  [3, 5, 7, 11, 13, 17, 19, 23, 29, 31, 37, 41, 43, 47, 53, 59, 61, 67, 71, 73,
   79, 83, 89, 97, 101, 103, 107, 109, 113, 127, 131, 137, 139, 149, 151, 157,
   163, 167, 173, 179, 181, 191, 193, 197, 199, 211, 223, 227, 229, 233, 239,
   241, 251, 257, 263, 269, 271, 277, 281, 283, 293, 307, 311, 313, 317, 331,
   337, 347, 349, 353, 359, 367]

/-- The 491-bit test modulus: the product of `bigPrimes` (62 bytes). -/
def bigN : Nat :=
  6082112888645887772547131113759020915717867804705987113112576149519766477461368682521308549659948177474214483656102786459827634084362909154266114665

/-- Private exponent: the inverse of 65537 modulo
`lcm (p - 1)` over `bigPrimes`. -/
def bigD : Nat := 769135934749736501407401088921182755473161473

/-- Public exponent. -/
def bigE : Nat := 65537

/-- A concrete valid engine built from the test key. -/
def bigAuth : RSAAuth := ⟨⟨⟨bigN, bigE⟩, bigD⟩, ⟨bigN, bigE⟩⟩

/-- A 62-byte modulus with a tiny private exponent, used where a
signature value must actually be computed inside the kernel (the
signing path never consults `e`). -/
def cheapN : Nat :=
  102293456496754433437912178025862473506770063938845774671352855253004181137646079840102190385184504910965208878986252219038039267058918532916516499513

/-- Engine around `cheapN` with private exponent 5. -/
def cheapAuth : RSAAuth := ⟨⟨⟨cheapN, 1⟩, 5⟩, ⟨cheapN, 1⟩⟩

/-- An `X509Lib` whose structure parsers reject everything, used to
instantiate lib-independent statements at a concrete value. -/
def trivLib : X509Lib := ⟨fun _ => none, fun _ => none, fun _ => none, fun _ => none⟩

/-- The parameter map of the spec's canonicalization test vector. -/
def exampleParams : List (String × GoValue) :=
  [("b", .vString "2"), ("a", .vString "1"), ("sign", .vString "ignored"),
   ("z", .vString "0"), ("empty", .vString "")]

theorem i2osp_length (x k : Nat) : (i2osp x k).length = k := by
  induction k generalizing x with
  | zero => rfl
  | succ k ih => simp [i2osp, ih]

theorem i2osp_lt (x k : Nat) : ∀ b ∈ i2osp x k, b < 256 := by
  induction k generalizing x with
  | zero => simp [i2osp]
  | succ k ih =>
    intro b hb
    simp only [i2osp, List.mem_append, List.mem_singleton] at hb
    rcases hb with hb | hb
    · exact ih _ b hb
    · omega

theorem os2ip_append (l : List Nat) (b : Nat) : os2ip (l ++ [b]) = os2ip l * 256 + b := by
  simp [os2ip, List.foldl_append]

theorem os2ip_i2osp (x k : Nat) (h : x < 256 ^ k) : os2ip (i2osp x k) = x := by
  induction k generalizing x with
  | zero =>
    simp only [pow_zero, Nat.lt_one_iff] at h
    simp [i2osp, os2ip, h]
  | succ k ih =>
    rw [i2osp, os2ip_append, ih (x / 256) (by rw [pow_succ] at h; omega)]
    omega

theorem i2osp_os2ip (l : List Nat) (h : ∀ b ∈ l, b < 256) :
    i2osp (os2ip l) l.length = l := by
  induction l using List.reverseRecOn with
  | nil => rfl
  | append_singleton l b ih =>
    rw [os2ip_append, List.length_append, List.length_singleton, i2osp]
    have hb : b < 256 := h b (by simp)
    have h1 : (os2ip l * 256 + b) / 256 = os2ip l := by omega
    have h2 : (os2ip l * 256 + b) % 256 = b := by omega
    rw [h1, h2, ih fun x hx => h x (by simp [hx])]

theorem os2ip_lt (l : List Nat) (h : ∀ b ∈ l, b < 256) : os2ip l < 256 ^ l.length := by
  induction l using List.reverseRecOn with
  | nil => simp [os2ip]
  | append_singleton l b ih =>
    rw [os2ip_append, List.length_append, List.length_singleton, pow_succ]
    have hb : b < 256 := h b (by simp)
    have := ih fun x hx => h x (by simp [hx])
    omega

theorem os2ip_cons_zero (l : List Nat) : os2ip (0 :: l) = os2ip l := by
  simp [os2ip]

theorem bitLenAux_zero (fuel : Nat) : bitLenAux fuel 0 = 0 := by
  cases fuel <;> rfl

theorem bitLenAux_bounds (fuel n : Nat) (h : n ≤ fuel) :
    n < 2 ^ bitLenAux fuel n ∧ (n = 0 ∨ 2 ^ (bitLenAux fuel n - 1) ≤ n) := by
  induction fuel generalizing n with
  | zero =>
    have hn : n = 0 := by omega
    subst hn
    exact ⟨by simp [bitLenAux], Or.inl rfl⟩
  | succ fuel ih =>
    by_cases hz : n = 0
    · subst hz
      exact ⟨by simp [bitLenAux], Or.inl rfl⟩
    · have hstep : bitLenAux (fuel + 1) n = bitLenAux fuel (n / 2) + 1 := by
        simp [bitLenAux, hz]
      obtain ⟨ih1, ih2⟩ := ih (n / 2) (by omega)
      have hpos : 0 < 2 ^ (bitLenAux fuel (n / 2) - 1) := Nat.pos_pow_of_pos _ (by omega)
      refine ⟨by rw [hstep, pow_succ]; omega, Or.inr ?_⟩
      rw [hstep, Nat.add_sub_cancel]
      rcases ih2 with h2 | h2
      · have hn1 : n = 1 := by omega
        subst hn1
        rw [show (1 : Nat) / 2 = 0 from rfl, bitLenAux_zero]
        simp
      · have hL : bitLenAux fuel (n / 2) ≠ 0 := by
          intro h0
          rw [h0] at ih1
          simp at ih1
          omega
        have hpow : 2 ^ bitLenAux fuel (n / 2) = 2 * 2 ^ (bitLenAux fuel (n / 2) - 1) := by
          conv_lhs => rw [show bitLenAux fuel (n / 2) = bitLenAux fuel (n / 2) - 1 + 1 by omega]
          rw [pow_succ]
          ring
        omega
theorem lt_two_pow_bitLen (n : Nat) : n < 2 ^ bitLen n :=
  (bitLenAux_bounds n n le_rfl).1

theorem two_pow_bitLen_le (n : Nat) (h : n ≠ 0) : 2 ^ (bitLen n - 1) ≤ n := by
  rcases (bitLenAux_bounds n n le_rfl).2 with h0 | h1
  · exact absurd h0 h
  · exact h1

theorem lt_pow_byteLen (n : Nat) : n < 256 ^ byteLen n := by
  have h1 := lt_two_pow_bitLen n
  have h2 : 2 ^ bitLen n ≤ 2 ^ (8 * byteLen n) :=
    Nat.pow_le_pow_right (by omega) (by unfold byteLen; omega)
  have h3 : (256 : Nat) ^ byteLen n = 2 ^ (8 * byteLen n) := by
    rw [show (256 : Nat) = 2 ^ 8 by norm_num, ← pow_mul]
  omega

theorem pow_byteLen_sub_le (n : Nat) (h : n ≠ 0) : 2 ^ (8 * byteLen n - 8) ≤ n := by
  have h1 := two_pow_bitLen_le n h
  have hb : bitLen n ≠ 0 := by
    intro h0
    have := lt_two_pow_bitLen n
    rw [h0] at this
    simp at this
    exact h this
  have h2 : 8 * byteLen n - 8 ≤ bitLen n - 1 := by unfold byteLen; omega
  calc 2 ^ (8 * byteLen n - 8) ≤ 2 ^ (bitLen n - 1) := Nat.pow_le_pow_right (by omega) h2
  _ ≤ n := h1

theorem b64CharVal_b64Char : ∀ i < 64, b64CharVal (b64Char i) = some i := by decide

theorem b64Char_valid : ∀ i < 64, (b64Char i ≠ '\n' ∧ b64Char i ≠ '\r') ∧ b64Char i ≠ '=' := by
  decide

theorem mem_encodeAux (bs : List Nat) (h : ∀ b ∈ bs, b < 256) :
    ∀ c ∈ base64EncodeAux bs, c = '=' ∨ ∃ i, i < 64 ∧ c = b64Char i := by
  induction bs using base64EncodeAux.induct with
  | case1 => simp [base64EncodeAux]
  | case2 b1 =>
    have hb : b1 < 256 := h b1 (by simp)
    intro c hc
    simp only [base64EncodeAux, List.mem_cons, List.not_mem_nil, or_false] at hc
    rcases hc with rfl | rfl | rfl | rfl
    · exact Or.inr ⟨b1 / 4, by omega, rfl⟩
    · exact Or.inr ⟨b1 % 4 * 16, by omega, rfl⟩
    · exact Or.inl rfl
    · exact Or.inl rfl
  | case3 b1 b2 =>
    have hb1 : b1 < 256 := h b1 (by simp)
    have hb2 : b2 < 256 := h b2 (by simp)
    intro c hc
    simp only [base64EncodeAux, List.mem_cons, List.not_mem_nil, or_false] at hc
    rcases hc with rfl | rfl | rfl | rfl
    · exact Or.inr ⟨b1 / 4, by omega, rfl⟩
    · exact Or.inr ⟨b1 % 4 * 16 + b2 / 16, by omega, rfl⟩
    · exact Or.inr ⟨b2 % 16 * 4, by omega, rfl⟩
    · exact Or.inl rfl
  | case4 b1 b2 b3 rest ih =>
    have hb1 : b1 < 256 := h b1 (by simp)
    have hb2 : b2 < 256 := h b2 (by simp)
    have hb3 : b3 < 256 := h b3 (by simp)
    intro c hc
    simp only [base64EncodeAux, List.mem_cons] at hc
    rcases hc with rfl | rfl | rfl | rfl | hc
    · exact Or.inr ⟨b1 / 4, by omega, rfl⟩
    · exact Or.inr ⟨b1 % 4 * 16 + b2 / 16, by omega, rfl⟩
    · exact Or.inr ⟨b2 % 16 * 4 + b3 / 64, by omega, rfl⟩
    · exact Or.inr ⟨b3 % 64, by omega, rfl⟩
    · exact ih (fun b hb => h b (by simp [hb])) c hc

theorem encodeAux_filter (bs : List Nat) (h : ∀ b ∈ bs, b < 256) :
    (base64EncodeAux bs).filter (fun c => c ≠ '\n' ∧ c ≠ '\r') = base64EncodeAux bs := by
  rw [List.filter_eq_self]
  intro c hc
  rcases mem_encodeAux bs h c hc with rfl | ⟨i, hi, rfl⟩
  · decide
  · have := (b64Char_valid i hi).1
    simp [this.1, this.2]

theorem decodeAux_encodeAux (bs : List Nat) (h : ∀ b ∈ bs, b < 256) :
    base64DecodeAux (base64EncodeAux bs) = some bs := by
  induction bs using base64EncodeAux.induct with
  | case1 => rfl
  | case2 b1 =>
    have hb : b1 < 256 := h b1 (by simp)
    rw [base64EncodeAux, base64DecodeAux]
    rw [if_pos ⟨rfl, rfl, rfl⟩]
    rw [b64CharVal_b64Char _ (show b1 / 4 < 64 by omega),
      b64CharVal_b64Char _ (show b1 % 4 * 16 < 64 by omega)]
    simp only [Option.bind_eq_bind, Option.some_bind, Option.pure_def, Option.some.injEq,
      List.cons.injEq, and_true]
    omega
  | case3 b1 b2 =>
    have hb1 : b1 < 256 := h b1 (by simp)
    have hb2 : b2 < 256 := h b2 (by simp)
    rw [base64EncodeAux, base64DecodeAux]
    rw [if_neg (by
      intro hc
      exact (b64Char_valid (b2 % 16 * 4) (by omega)).2 hc.2.1)]
    rw [if_pos ⟨rfl, rfl⟩]
    rw [b64CharVal_b64Char _ (show b1 / 4 < 64 by omega),
      b64CharVal_b64Char _ (show b1 % 4 * 16 + b2 / 16 < 64 by omega),
      b64CharVal_b64Char _ (show b2 % 16 * 4 < 64 by omega)]
    simp only [Option.bind_eq_bind, Option.some_bind, Option.pure_def, Option.some.injEq,
      List.cons.injEq, and_true]
    omega
  | case4 b1 b2 b3 rest ih =>
    have hb1 : b1 < 256 := h b1 (by simp)
    have hb2 : b2 < 256 := h b2 (by simp)
    have hb3 : b3 < 256 := h b3 (by simp)
    rw [base64EncodeAux, base64DecodeAux]
    rw [if_neg (by
      intro hc
      exact (b64Char_valid (b2 % 16 * 4 + b3 / 64) (by omega)).2 hc.2.1)]
    rw [if_neg (by
      intro hc
      exact (b64Char_valid (b3 % 64) (by omega)).2 hc.2)]
    rw [b64CharVal_b64Char _ (show b1 / 4 < 64 by omega),
      b64CharVal_b64Char _ (show b1 % 4 * 16 + b2 / 16 < 64 by omega),
      b64CharVal_b64Char _ (show b2 % 16 * 4 + b3 / 64 < 64 by omega),
      b64CharVal_b64Char _ (show b3 % 64 < 64 by omega),
      ih (fun b hb => h b (by simp [hb]))]
    simp only [Option.bind_eq_bind, Option.some_bind, Option.pure_def, Option.some.injEq,
      List.cons.injEq, and_true]
    omega

theorem base64Decode_encode (bs : List Nat) (h : ∀ b ∈ bs, b < 256) :
    base64Decode (base64Encode bs) = some bs := by
  show base64DecodeAux ((base64EncodeAux bs).filter _) = some bs
  rw [encodeAux_filter bs h]
  exact decodeAux_encodeAux bs h

theorem shaOut_length (st : SHAState) : (shaOut st).length = 32 := rfl

theorem sha256_length (msg : List Nat) : (sha256 msg).length = 32 :=
  shaOut_length _

theorem wordBytes_lt (w : Nat) : ∀ b ∈ wordBytes w, b < 256 := by
  intro b hb
  simp only [wordBytes, List.mem_cons, List.not_mem_nil, or_false] at hb
  rcases hb with rfl | rfl | rfl | rfl <;> omega

theorem shaOut_lt (st : SHAState) : ∀ b ∈ shaOut st, b < 256 := by
  intro b hb
  simp only [shaOut, List.mem_append] at hb
  rcases hb with ((((((h | h) | h) | h) | h) | h) | h) | h <;> exact wordBytes_lt _ b h

theorem sha256_lt (msg : List Nat) : ∀ b ∈ sha256 msg, b < 256 :=
  shaOut_lt _

theorem utf8EncodeChar_ne_nil (c : Char) : utf8EncodeChar c ≠ [] := by
  simp only [utf8EncodeChar]
  split
  · simp
  · split
    · simp
    · split
      · simp
      · simp

theorem utf8Bytes_eq_nil (s : String) : utf8Bytes s = [] ↔ s = "" := by
  constructor
  · intro h
    cases s with
    | mk data =>
      cases data with
      | nil => rfl
      | cons c cs =>
        exfalso
        simp only [utf8Bytes, List.flatMap_cons, List.append_eq_nil] at h
        exact utf8EncodeChar_ne_nil c h.1
  · intro h
    subst h
    rfl

/-- Validity of a loaded key pair: the public key shares the private
key's modulus and the combined exponents invert the RSA power on every
residue.  This is the property an honestly generated RSA key pair
satisfies. -/
def ValidKeyPair (priv : RSAPrivateKey) (pub : RSAPublicKey) : Prop :=
  pub.n = priv.pub.n ∧ 1 < pub.n ∧ ∀ m, m < pub.n → m ^ (priv.d * pub.e) % pub.n = m

theorem pow_congr_prime (p : Nat) (hp : Nat.Prime p) (x : Nat)
    (hx : x % (p - 1) = 1) (m : Nat) : m ^ x ≡ m [MOD p] := by
  have hx1 : 0 < x := by
    rcases Nat.eq_zero_or_pos x with h0 | h0
    · subst h0
      simp at hx
    · exact h0
  by_cases hdvd : p ∣ m
  · have h1 : m ≡ 0 [MOD p] := (Nat.modEq_zero_iff_dvd).2 hdvd
    calc m ^ x ≡ 0 ^ x [MOD p] := h1.pow x
    _ = 0 := zero_pow (by omega)
    _ ≡ m [MOD p] := h1.symm
  · have hco : Nat.Coprime m p := ((Nat.Prime.coprime_iff_not_dvd hp).2 hdvd).symm
    have heuler : m ^ (p - 1) ≡ 1 [MOD p] := by
      have h := Nat.ModEq.pow_totient hco
      rwa [Nat.totient_prime hp] at h
    have hxsplit : x = (p - 1) * (x / (p - 1)) + 1 := by
      have := Nat.div_add_mod x (p - 1)
      omega
    calc m ^ x = (m ^ (p - 1)) ^ (x / (p - 1)) * m := by
          rw [← pow_mul, ← pow_succ, ← hxsplit]
    _ ≡ 1 ^ (x / (p - 1)) * m [MOD p] := Nat.ModEq.mul ((heuler.pow _)) Nat.ModEq.rfl
    _ = m := by rw [one_pow, one_mul]

theorem coprime_list_prod (k : Nat) (l : List Nat) (h : ∀ n ∈ l, Nat.Coprime k n) :
    Nat.Coprime k l.prod := by
  induction l with
  | nil => simp [Nat.coprime_one_right]
  | cons p ps ih =>
    rw [List.prod_cons]
    exact Nat.Coprime.mul_right (h p (by simp)) (ih fun n hn => h n (by simp [hn]))

theorem modEq_prod_of_primes (ps : List Nat) (hp : ∀ p ∈ ps, Nat.Prime p)
    (hnd : ps.Nodup) (a b : Nat) (h : ∀ p ∈ ps, a ≡ b [MOD p]) :
    a ≡ b [MOD ps.prod] := by
  induction ps with
  | nil => simp [Nat.modEq_one]
  | cons p ps ih =>
    have hpp : Nat.Prime p := hp p (by simp)
    have hco : Nat.Coprime p ps.prod := by
      refine coprime_list_prod p ps fun q hq => ?_
      have hq' : Nat.Prime q := hp q (by simp [hq])
      refine (Nat.coprime_primes hpp hq').2 ?_
      intro hpq
      subst hpq
      exact (List.nodup_cons.1 hnd).1 hq
    rw [List.prod_cons]
    refine (Nat.modEq_and_modEq_iff_modEq_mul hco).1 ⟨h p (by simp), ?_⟩
    exact ih (fun q hq => hp q (by simp [hq])) (List.nodup_cons.1 hnd).2
      fun q hq => h q (by simp [hq])

theorem validKeyPair_of_primes (ps : List Nat) (d e : Nat)
    (hp : ∀ p ∈ ps, Nat.Prime p) (hnd : ps.Nodup)
    (hde : ∀ p ∈ ps, d * e % (p - 1) = 1) (hn : 1 < ps.prod) :
    ValidKeyPair ⟨⟨ps.prod, e⟩, d⟩ ⟨ps.prod, e⟩ := by
  refine ⟨rfl, hn, ?_⟩
  intro m hm
  have hmod : m ^ (d * e) ≡ m [MOD ps.prod] :=
    modEq_prod_of_primes ps hp hnd _ _ fun p hp' =>
      pow_congr_prime p (hp p hp') _ (hde p hp') m
  calc m ^ (d * e) % ps.prod = m % ps.prod := hmod
  _ = m := Nat.mod_eq_of_lt hm

set_option maxRecDepth 100000 in
set_option maxHeartbeats 2000000 in
theorem bigAuth_valid : ValidKeyPair bigAuth.privateKey bigAuth.publicKey := by
  have hprod : bigPrimes.prod = bigN := by decide
  have h := validKeyPair_of_primes bigPrimes bigD bigE (by decide) (by decide) (by decide)
    (by decide)
  rw [hprod] at h
  exact h

theorem emsa_length (hashed : List Nat) (k : Nat)
    (h : digestHead.length + hashed.length + 11 ≤ k) :
    (emsaPkcs1v15 hashed k).length = k := by
  simp only [emsaPkcs1v15, List.length_cons, List.length_append, List.length_replicate]
  simp only [digestHead, List.length_cons, List.length_nil] at h ⊢
  omega

theorem emsa_lt (hashed : List Nat) (k : Nat) (hh : ∀ b ∈ hashed, b < 256) :
    ∀ b ∈ emsaPkcs1v15 hashed k, b < 256 := by
  intro b hb
  simp only [emsaPkcs1v15, List.mem_cons, List.mem_append, List.mem_replicate] at hb
  have hd : ∀ x ∈ digestHead, x < 256 := by decide
  rcases hb with rfl | rfl | ⟨_, rfl⟩ | rfl | hx | hx
  · omega
  · omega
  · omega
  · omega
  · exact hd b hx
  · exact hh b hx

theorem os2ip_emsa_lt (hashed : List Nat) (n : Nat) (hn : 1 < n)
    (hh : ∀ b ∈ hashed, b < 256)
    (hk : digestHead.length + hashed.length + 11 ≤ byteLen n) :
    os2ip (emsaPkcs1v15 hashed (byteLen n)) < n := by
  set k := byteLen n with hkdef
  set rest := 1 :: (List.replicate (k - (digestHead.length + hashed.length) - 3) 255 ++
    0 :: (digestHead ++ hashed)) with hrest_def
  have hform : emsaPkcs1v15 hashed k = 0 :: rest := rfl
  have hrlen : rest.length = k - 1 := by
    have h := emsa_length hashed k hk
    rw [hform, List.length_cons] at h
    omega
  have hrlt : ∀ b ∈ rest, b < 256 := by
    intro b hb
    exact emsa_lt hashed k hh b (by rw [hform]; exact List.mem_cons_of_mem _ hb)
  have h1 : os2ip rest < 256 ^ (k - 1) := by
    have h := os2ip_lt rest hrlt
    rwa [hrlen] at h
  have h2 : (256 : Nat) ^ (k - 1) ≤ 2 ^ (8 * k - 8) := by
    rw [show (256 : Nat) = 2 ^ 8 by norm_num, ← pow_mul]
    exact Nat.pow_le_pow_right (by omega) (by omega)
  have h3 : 2 ^ (8 * k - 8) ≤ n := pow_byteLen_sub_le n (by omega)
  rw [hform, os2ip_cons_zero]
  omega

/-- C2: with a valid key pair whose modulus is at least 62 bytes (the
minimum Go's PKCS#1 v1.5 SHA-256 signing accepts), signing any payload
succeeds and the produced signature verifies against the same
payload. -/
theorem sign_verify_roundtrip (r : RSAAuth) (data : List Nat)
    (hv : ValidKeyPair r.privateKey r.publicKey)
    (hk : 62 ≤ byteLen r.privateKey.pub.n) :
    ∃ sig, r.Sign data = .ok sig ∧ r.Verify data sig = .ok () := by
  obtain ⟨hne, h1n, hinv⟩ := hv
  have h1n' : 1 < r.privateKey.pub.n := by rw [← hne]; exact h1n
  have hhlen : (sha256 data).length = 32 := sha256_length data
  have hhlt := sha256_lt data
  have htlen : digestHead.length + (sha256 data).length + 11 = 62 := by
    rw [hhlen]
    rfl
  have hcond : ¬ (byteLen r.privateKey.pub.n < digestHead.length + (sha256 data).length + 11) := by
    omega
  have hsp : signPKCS1v15 (fun _ => 0) r.privateKey (sha256 data) =
      .ok (i2osp (powMod (os2ip (emsaPkcs1v15 (sha256 data) (byteLen r.privateKey.pub.n)))
        r.privateKey.d r.privateKey.pub.n) (byteLen r.privateKey.pub.n)) := by
    simp only [signPKCS1v15]
    rw [if_neg hcond]
  have hsign : r.Sign data = .ok (base64Encode
      (i2osp (powMod (os2ip (emsaPkcs1v15 (sha256 data) (byteLen r.privateKey.pub.n)))
        r.privateKey.d r.privateKey.pub.n) (byteLen r.privateKey.pub.n))) := by
    simp only [RSAAuth.Sign, hsp]
  set n := r.privateKey.pub.n with hn_def
  set k := byteLen n with hk_def
  set em := emsaPkcs1v15 (sha256 data) k with hem_def
  set m0 := os2ip em with hm0_def
  set s := powMod m0 r.privateKey.d n with hs_def
  have hm0 : m0 < n := os2ip_emsa_lt (sha256 data) n h1n' hhlt (by omega)
  have hs : s < n := Nat.mod_lt _ (by omega)
  have hsig_lt := i2osp_lt s k
  have hsig_len : (i2osp s k).length = k := i2osp_length s k
  refine ⟨base64Encode (i2osp s k), hsign, ?_⟩
  simp only [RSAAuth.Verify, base64Decode_encode (i2osp s k) hsig_lt]
  have hklt : n < 256 ^ k := lt_pow_byteLen n
  have hos : os2ip (i2osp s k) = s := os2ip_i2osp s k (by omega)
  have hpow : powMod s r.publicKey.e n = m0 := by
    show s ^ r.publicKey.e % n = m0
    rw [hs_def]
    show (m0 ^ r.privateKey.d % n) ^ r.publicKey.e % n = m0
    rw [← Nat.pow_mod, ← pow_mul]
    have h := hinv m0 (by rw [hne]; exact hm0)
    rw [hne] at h
    exact h
  have hemlen : em.length = k := emsa_length _ _ (by omega)
  have hemi : i2osp m0 k = em := by
    rw [hm0_def, ← hemlen, i2osp_os2ip em (emsa_lt _ _ hhlt)]
  simp only [verifyPKCS1v15, hhlen]
  rw [if_neg (by simp), hne, ← hk_def]
  rw [if_neg (by simp only [digestHead, List.length_cons, List.length_nil]; omega)]
  rw [if_neg (by rw [hsig_len]; exact fun h => h rfl)]
  rw [hos, hpow, hemi]
  rw [if_pos rfl]

set_option maxRecDepth 20000 in
theorem sign_verify_roundtrip_witness :
    ∃ sig, bigAuth.Sign [1, 2, 3] = .ok sig ∧ bigAuth.Verify [1, 2, 3] sig = .ok () :=
  sign_verify_roundtrip bigAuth [1, 2, 3] bigAuth_valid (by decide)

/-- C5: the signature operation is deterministic: two calls of `Sign`
on the same payload are identical, and the PKCS#1 v1.5 signing
primitive does not depend on the random reader it receives. -/
theorem sign_deterministic (r : RSAAuth) (data : List Nat) (rng₁ rng₂ : Nat → Nat) :
    r.Sign data = r.Sign data ∧
    signPKCS1v15 rng₁ r.privateKey (sha256 data) =
      signPKCS1v15 rng₂ r.privateKey (sha256 data) :=
  ⟨rfl, rfl⟩

theorem verifyPKCS1v15_cases (pub : RSAPublicKey) (hashed sig : List Nat) :
    verifyPKCS1v15 pub hashed sig = .ok () ∨
    verifyPKCS1v15 pub hashed sig = .error .verificationFailed := by
  simp only [verifyPKCS1v15]
  by_cases h1 : hashed.length ≠ 32
  · rw [if_pos h1]
    right
    rfl
  · rw [if_neg h1]
    by_cases h2 : byteLen pub.n < digestHead.length + hashed.length + 11
    · rw [if_pos h2]
      right
      rfl
    · rw [if_neg h2]
      by_cases h3 : sig.length ≠ byteLen pub.n
      · rw [if_pos h3]
        right
        rfl
      · rw [if_neg h3]
        by_cases h4 : i2osp (powMod (os2ip sig) pub.e pub.n) (byteLen pub.n) =
            emsaPkcs1v15 hashed (byteLen pub.n)
        · rw [if_pos h4]
          left
          rfl
        · rw [if_neg h4]
          right
          rfl

/-- C6: `Verify` reports a base64 decode failure with its own error
kind and never reaches the cryptographic check there, while a
signature that decodes but fails the cryptographic check produces the
distinct verification-failed kind. -/
theorem verify_error_modes (r : RSAAuth) (data : List Nat) (sig : String) :
    (base64Decode sig = none → r.Verify data sig = .error .invalidEncoding) ∧
    (∀ bs, base64Decode sig = some bs → r.Verify data sig ≠ .ok () →
      r.Verify data sig = .error .verificationFailed) ∧
    ErrKind.invalidEncoding ≠ ErrKind.verificationFailed := by
  refine ⟨fun h => by simp [RSAAuth.Verify, h], fun bs h hne => ?_, by decide⟩
  simp only [RSAAuth.Verify, h] at hne ⊢
  rcases verifyPKCS1v15_cases r.publicKey (sha256 data) bs with hc | hc
  · exact absurd hc hne
  · exact hc

set_option maxRecDepth 20000 in
theorem verify_error_modes_witness :
    bigAuth.Verify [] "!!" = .error .invalidEncoding ∧
    bigAuth.Verify [] "" = .error .verificationFailed :=
  ⟨(verify_error_modes bigAuth [] "!!").1 (by decide),
   (verify_error_modes bigAuth [] "").2.1 [] (by decide) (by decide)⟩

/-- C8: a plaintext longer than the modulus byte length minus eleven
makes `Encrypt` fail with the encryption-failure kind; no ciphertext is
produced. -/
theorem encrypt_oversize (r : RSAAuth) (rng : Nat → Nat) (data : List Nat)
    (h : (data.length : Int) > (byteLen r.publicKey.n : Int) - 11) :
    r.Encrypt rng data = .error .encryptionFailure := by
  unfold RSAAuth.Encrypt
  rw [if_pos h]

set_option maxRecDepth 20000 in
theorem encrypt_oversize_witness :
    bigAuth.Encrypt (fun _ => 0) (List.replicate 52 0) = .error .encryptionFailure :=
  encrypt_oversize bigAuth (fun _ => 0) (List.replicate 52 0) (by decide)

/-- C9: a parameter map all of whose entries are filtered out signs the
empty canonical string; with a modulus of at least 62 bytes the call
succeeds and returns the signature of the empty byte sequence. -/
theorem signParameters_empty (r : RSAAuth) (params : List (String × GoValue))
    (h : filterParameters params = []) :
    r.SignParameters params = r.Sign (utf8Bytes "") ∧
    (62 ≤ byteLen r.privateKey.pub.n → ∃ sig, r.SignParameters params = .ok sig) := by
  have h1 : r.SignParameters params = r.Sign (utf8Bytes "") := by
    unfold RSAAuth.SignParameters
    rw [h]
    rfl
  refine ⟨h1, fun hk => ?_⟩
  rw [h1]
  have hcond : ¬ (byteLen r.privateKey.pub.n <
      digestHead.length + (sha256 (utf8Bytes "")).length + 11) := by
    rw [sha256_length]
    simp only [digestHead, List.length_cons, List.length_nil]
    omega
  have hsp : signPKCS1v15 (fun _ => 0) r.privateKey (sha256 (utf8Bytes "")) =
      .ok (i2osp (powMod (os2ip (emsaPkcs1v15 (sha256 (utf8Bytes ""))
        (byteLen r.privateKey.pub.n))) r.privateKey.d r.privateKey.pub.n)
        (byteLen r.privateKey.pub.n)) := by
    simp only [signPKCS1v15]
    rw [if_neg hcond]
  unfold RSAAuth.Sign
  rw [hsp]
  exact ⟨_, rfl⟩

set_option maxRecDepth 20000 in
theorem signParameters_empty_witness :
    ∃ sig, bigAuth.SignParameters [("sign", .vString "x"), ("z", .vInt 0), ("w", .vNil)] =
      .ok sig :=
  (signParameters_empty bigAuth [("sign", .vString "x"), ("z", .vInt 0), ("w", .vNil)]
    (by decide)).2 (by decide)

theorem nonZeroRandomBytes_length (n : Nat) (rng : Nat → Nat) :
    (nonZeroRandomBytes n rng).length = n := by
  simp [nonZeroRandomBytes]

theorem nonZeroRandomBytes_bounds (n : Nat) (rng : Nat → Nat) :
    ∀ b ∈ nonZeroRandomBytes n rng, 0 < b ∧ b < 256 := by
  intro b hb
  simp only [nonZeroRandomBytes, List.mem_map, List.mem_range] at hb
  obtain ⟨i, _, rfl⟩ := hb
  omega

theorem indexOf_zero_append (ps t : List Nat) (h : ∀ x ∈ ps, x ≠ 0) :
    (ps ++ 0 :: t).indexOf 0 = ps.length := by
  induction ps with
  | nil => simp [List.indexOf_cons]
  | cons p ps ih =>
    have hp : p ≠ 0 := h p (by simp)
    simp only [List.cons_append, List.indexOf_cons, List.length_cons]
    have : (p == 0) = false := by simp [hp]
    rw [this]
    simp only [cond_false]
    rw [ih fun x hx => h x (by simp [hx])]

theorem os2ip_zero_cons_lt (l : List Nat) (n : Nat) (hn : 1 < n)
    (hl : ∀ b ∈ l, b < 256) (hlen : l.length + 1 = byteLen n) : os2ip (0 :: l) < n := by
  rw [os2ip_cons_zero]
  have h1 := os2ip_lt l hl
  have h2 : (256 : Nat) ^ l.length ≤ 2 ^ (8 * byteLen n - 8) := by
    rw [show (256 : Nat) = 2 ^ 8 by norm_num, ← pow_mul]
    exact Nat.pow_le_pow_right (by omega) (by omega)
  have h3 := pow_byteLen_sub_le n (by omega)
  omega

/-- C7: with a valid key pair, a plaintext of at most the modulus byte
length minus eleven encrypts successfully and decrypting the
ciphertext returns exactly the original plaintext. -/
theorem encrypt_decrypt_roundtrip (r : RSAAuth) (rng : Nat → Nat) (data : List Nat)
    (hv : ValidKeyPair r.privateKey r.publicKey)
    (hlen : data.length + 11 ≤ byteLen r.publicKey.n)
    (hdata : ∀ b ∈ data, b < 256) :
    ∃ ct, r.Encrypt rng data = .ok ct ∧ r.Decrypt ct = .ok data := by
  obtain ⟨hne, h1n, hinv⟩ := hv
  set n := r.publicKey.n with hn_def
  set k := byteLen n with hk_def
  set ps := nonZeroRandomBytes (k - data.length - 3) rng with hps_def
  set em := 0 :: 2 :: (ps ++ 0 :: data) with hem_def
  have hpslen : ps.length = k - data.length - 3 := nonZeroRandomBytes_length _ _
  have hpsb := nonZeroRandomBytes_bounds (k - data.length - 3) rng
  have hemtail_lt : ∀ b ∈ 2 :: (ps ++ 0 :: data), b < 256 := by
    intro b hb
    simp only [List.mem_cons, List.mem_append] at hb
    rcases hb with rfl | hb | rfl | hb
    · omega
    · exact (hpsb b hb).2
    · omega
    · exact hdata b hb
  have hemlen : em.length = k := by
    simp only [hem_def, List.length_cons, List.length_append]
    omega
  have hm0 : os2ip em < n := by
    rw [hem_def]
    refine os2ip_zero_cons_lt _ n h1n hemtail_lt ?_
    simp only [List.length_cons, List.length_append]
    omega
  set m0 := os2ip em with hm0_def
  have hcond : ¬ ((data.length : Int) > (k : Int) - 11) := by omega
  have henc : r.Encrypt rng data =
      .ok (base64Encode (i2osp (powMod m0 r.publicKey.e n) k)) := by
    simp only [RSAAuth.Encrypt]
    rw [if_neg hcond]
  set c := powMod m0 r.publicKey.e n with hc_def
  have hc : c < n := Nat.mod_lt _ (by omega)
  have hcb := i2osp_lt c k
  have hclen := i2osp_length c k
  refine ⟨base64Encode (i2osp c k), henc, ?_⟩
  simp only [RSAAuth.Decrypt, base64Decode_encode (i2osp c k) hcb]
  rw [← hne, ← hk_def]
  have hosc : os2ip (i2osp c k) = c := os2ip_i2osp c k (by
    have h := lt_pow_byteLen n
    rw [← hk_def] at h
    omega)
  rw [hosc]
  rw [if_neg (by omega), if_neg (by omega)]
  have hpow : powMod c r.privateKey.d n = m0 := by
    show c ^ r.privateKey.d % n = m0
    rw [hc_def]
    show (m0 ^ r.publicKey.e % n) ^ r.privateKey.d % n = m0
    rw [← Nat.pow_mod, ← pow_mul, mul_comm]
    exact hinv m0 hm0
  rw [hpow]
  have hemi : i2osp m0 k = em := by
    rw [hm0_def, ← hemlen, i2osp_os2ip em (by
      intro b hb
      rw [hem_def] at hb
      rcases List.mem_cons.1 hb with rfl | hb
      · omega
      · exact hemtail_lt b hb)]
  rw [hemi, hem_def]
  show (if _ ∨ _ then _ else _) = _
  rw [indexOf_zero_append ps data fun x hx => by
    have := (hpsb x hx).1
    omega]
  rw [if_neg (by
    simp only [List.length_append, List.length_cons]
    omega)]
  rw [show ps.length + 1 = ps.length + 1 from rfl, List.drop_append 1]
  rfl

set_option maxRecDepth 20000 in
theorem encrypt_decrypt_roundtrip_witness :
    ∃ ct, bigAuth.Encrypt (fun _ => 0) [10, 20, 30] = .ok ct ∧
      bigAuth.Decrypt ct = .ok [10, 20, 30] :=
  encrypt_decrypt_roundtrip bigAuth (fun _ => 0) [10, 20, 30] bigAuth_valid
    (by decide) (by decide)

/-- C3: on every non-empty input and for every choice of the external
structure parsers, the private-key loader behaves exactly as the
spec's decision tree describes: trimmed-marker dispatch, PKCS#8 before
PKCS#1 on the PEM path, PKCS#1 before PKCS#8 on the base64 path, first
success wins, non-RSA keys rejected. -/
theorem parsePrivateKey_spec (lib : X509Lib) (raw : String) (h : raw ≠ "") :
    parsePrivateKey lib raw = specLoadPrivateKey lib raw := by
  simp only [parsePrivateKey, specLoadPrivateKey]
  rw [if_neg (fun hc => h ((utf8Bytes_eq_nil raw).1 hc))]
  by_cases hm : hasPEMMarker (goTrimSpace raw) = true
  · rw [if_pos hm, if_pos hm]
    simp only [parsePEMPrivateKey]
    cases hpd : lib.pemDecode raw with
    | none => rfl
    | some der =>
      cases h8 : lib.parsePKCS8PrivateKey der with
      | none => cases h1 : lib.parsePKCS1PrivateKey der <;> simp [h8, h1]
      | some a => cases a <;> simp [h8]
  · rw [if_neg hm, if_neg hm]
    simp only [parseBase64PKCS8PrivateKey]
    cases hbd : base64Decode (goTrimSpace raw) with
    | none => rfl
    | some der =>
      cases h1 : lib.parsePKCS1PrivateKey der with
      | none =>
        cases h8 : lib.parsePKCS8PrivateKey der with
        | none => simp [h1, h8]
        | some a => cases a <;> simp [h1, h8]
      | some k => simp [h1]

theorem parsePrivateKey_spec_witness :
    parsePrivateKey trivLib "AAAA" = specLoadPrivateKey trivLib "AAAA" :=
  parsePrivateKey_spec trivLib "AAAA" (by decide)

theorem parsePEMPrivateKey_ne_emptyKey (lib : X509Lib) (raw : String) :
    parsePEMPrivateKey lib raw ≠ .error .emptyKey := by
  simp only [parsePEMPrivateKey]
  cases lib.pemDecode raw with
  | none => simp
  | some der =>
    cases h8 : lib.parsePKCS8PrivateKey der with
    | none => cases h1 : lib.parsePKCS1PrivateKey der <;> simp [h8, h1]
    | some a => cases a <;> simp [h8]

theorem parseBase64PKCS8_ne_emptyKey (lib : X509Lib) (s : String) :
    parseBase64PKCS8PrivateKey lib s ≠ .error .emptyKey := by
  simp only [parseBase64PKCS8PrivateKey]
  cases base64Decode s with
  | none => simp
  | some der =>
    cases h1 : lib.parsePKCS1PrivateKey der with
    | none =>
      cases h8 : lib.parsePKCS8PrivateKey der with
      | none => simp [h1, h8]
      | some a => cases a <;> simp [h1, h8]
    | some k => simp [h1]

theorem parsePEMPublicKey_ne_emptyKey (lib : X509Lib) (raw : String) :
    parsePEMPublicKey lib raw ≠ .error .emptyKey := by
  simp only [parsePEMPublicKey]
  cases lib.pemDecode raw with
  | none => simp
  | some der =>
    cases hx : lib.parsePKIXPublicKey der with
    | none => simp [hx]
    | some a => cases a <;> simp [hx]

theorem parseBase64X509_ne_emptyKey (lib : X509Lib) (s : String) :
    parseBase64X509PublicKey lib s ≠ .error .emptyKey := by
  simp only [parseBase64X509PublicKey]
  cases base64Decode s with
  | none => simp
  | some der =>
    cases hx : lib.parsePKIXPublicKey der with
    | none => simp [hx]
    | some a => cases a <;> simp [hx]

theorem goTrimSpace_all_space (s : String) (h : ∀ c ∈ s.data, isGoSpace c) :
    goTrimSpace s = "" := by
  unfold goTrimSpace
  have h1 : s.data.dropWhile isGoSpace = [] := by
    rw [List.dropWhile_eq_nil_iff]
    exact fun x hx => h x hx
  rw [h1]
  rfl

/-- C4 (amended): the key loaders return the empty-key error exactly
when the input is the empty byte blob; a whitespace-only non-empty
input passes the length check, trims to the empty string, takes the
base64 branch (where the empty text decodes to zero bytes), and fails
with the unsupported-structure kind instead, provided the structure
parsers reject empty DER as the real `crypto/x509` ones do. -/
theorem parse_emptyKey_iff (lib : X509Lib) (s : String)
    (hlib1 : lib.parsePKCS1PrivateKey [] = none)
    (hlib8 : lib.parsePKCS8PrivateKey [] = none)
    (hlibx : lib.parsePKIXPublicKey [] = none) :
    (parsePrivateKey lib s = .error .emptyKey ↔ s = "") ∧
    (parsePublicKey lib s = .error .emptyKey ↔ s = "") ∧
    (s ≠ "" → (∀ c ∈ s.data, isGoSpace c) →
      parsePrivateKey lib s = .error .unsupportedStructure ∧
      parsePublicKey lib s = .error .unsupportedStructure) := by
  have hbd : base64Decode "" = some [] := rfl
  refine ⟨⟨?_, ?_⟩, ⟨?_, ?_⟩, ?_⟩
  · intro h
    by_contra hs
    have hne : ¬(utf8Bytes s = []) := fun hc => hs ((utf8Bytes_eq_nil s).1 hc)
    simp only [parsePrivateKey] at h
    rw [if_neg hne] at h
    by_cases hm : hasPEMMarker (goTrimSpace s) = true
    · rw [if_pos hm] at h
      exact parsePEMPrivateKey_ne_emptyKey lib s h
    · rw [if_neg hm] at h
      exact parseBase64PKCS8_ne_emptyKey lib (goTrimSpace s) h
  · intro h
    subst h
    rfl
  · intro h
    by_contra hs
    have hne : ¬(utf8Bytes s = []) := fun hc => hs ((utf8Bytes_eq_nil s).1 hc)
    simp only [parsePublicKey] at h
    rw [if_neg hne] at h
    by_cases hm : hasPEMMarker (goTrimSpace s) = true
    · rw [if_pos hm] at h
      exact parsePEMPublicKey_ne_emptyKey lib s h
    · rw [if_neg hm] at h
      exact parseBase64X509_ne_emptyKey lib (goTrimSpace s) h
  · intro h
    subst h
    rfl
  · intro hs hws
    have htrim := goTrimSpace_all_space s hws
    have hne : ¬(utf8Bytes s = []) := fun hc => hs ((utf8Bytes_eq_nil s).1 hc)
    constructor
    · simp only [parsePrivateKey]
      rw [if_neg hne, htrim]
      rw [if_neg (by decide)]
      simp only [parseBase64PKCS8PrivateKey]
      rw [hbd]
      simp [hlib1, hlib8]
    · simp only [parsePublicKey]
      rw [if_neg hne, htrim]
      rw [if_neg (by decide)]
      simp only [parseBase64X509PublicKey]
      rw [hbd]
      simp [hlibx]

/-- C4 counterexample: the single-space input is whitespace-only and
non-empty, yet the loader reports unsupported structure, not the
empty-key kind the claim requires. -/
theorem parse_whitespace_counterexample :
    (∀ c ∈ (" " : String).data, isGoSpace c) ∧ (" " : String) ≠ "" ∧
    parsePrivateKey trivLib " " = .error .unsupportedStructure ∧
    ErrKind.unsupportedStructure ≠ ErrKind.emptyKey := by decide

theorem parse_emptyKey_iff_witness :
    (parsePrivateKey trivLib " " = .error .emptyKey ↔ (" " : String) = "") ∧
    (parsePublicKey trivLib " " = .error .emptyKey ↔ (" " : String) = "") ∧
    ((" " : String) ≠ "" → (∀ c ∈ (" " : String).data, isGoSpace c) →
      parsePrivateKey trivLib " " = .error .unsupportedStructure ∧
      parsePublicKey trivLib " " = .error .unsupportedStructure) :=
  parse_emptyKey_iff trivLib " " rfl rfl rfl

theorem strLeChars_trans : ∀ l1 l2 l3 : List Char, strLeChars l1 l2 = true →
    strLeChars l2 l3 = true → strLeChars l1 l3 = true := by
  intro l1
  induction l1 with
  | nil => intro l2 l3 _ _; rfl
  | cons c1 t1 ih =>
    intro l2 l3 h12 h23
    cases l2 with
    | nil => simp [strLeChars] at h12
    | cons c2 t2 =>
      cases l3 with
      | nil => simp [strLeChars] at h23
      | cons c3 t3 =>
        simp only [strLeChars] at h12 h23 ⊢
        split_ifs at h12 h23 ⊢ <;>
          first
          | rfl
          | exact ih t2 t3 h12 h23
          | omega

theorem strLeChars_total : ∀ l1 l2 : List Char,
    strLeChars l1 l2 = true ∨ strLeChars l2 l1 = true := by
  intro l1
  induction l1 with
  | nil => intro l2; left; rfl
  | cons c1 t1 ih =>
    intro l2
    cases l2 with
    | nil => right; rfl
    | cons c2 t2 =>
      simp only [strLeChars]
      split_ifs <;>
        first
        | exact Or.inl rfl
        | exact Or.inr rfl
        | exact ih t2

instance : IsTrans String fun a b => strLe a b = true :=
  ⟨fun a b c => strLeChars_trans a.data b.data c.data⟩

instance : IsTotal String fun a b => strLe a b = true :=
  ⟨fun a b => strLeChars_total a.data b.data⟩

theorem sortStrings_sorted (l : List String) :
    List.Sorted (fun a b => strLe a b = true) (sortStrings l) :=
  List.sorted_insertionSort _ l

theorem sortStrings_perm (l : List String) : (sortStrings l).Perm l :=
  List.perm_insertionSort _ l

theorem sortStrings_of_sorted (l : List String)
    (h : List.Sorted (fun a b => strLe a b = true) l) : sortStrings l = l :=
  List.Sorted.insertionSort_eq h

theorem valuesAdd_not_mem (vs : List (String × List String)) (k : String) (v : String)
    (h : k ∉ vs.map Prod.fst) : valuesAdd vs k v = vs ++ [(k, [v])] := by
  induction vs with
  | nil => rfl
  | cons p rest ih =>
    simp only [List.map_cons, List.mem_cons] at h
    push_neg at h
    simp only [valuesAdd]
    rw [if_neg (fun hc => h.1 hc.symm)]
    rw [ih h.2]
    rfl

theorem foldl_valuesAdd (f : String → String) :
    ∀ (ks pre : List String), (pre ++ ks).Nodup →
    ks.foldl (fun acc key => valuesAdd acc key (f key)) (pre.map fun k => (k, [f k])) =
      (pre ++ ks).map fun k => (k, [f k]) := by
  intro ks
  induction ks with
  | nil => intro pre _; simp
  | cons k rest ih =>
    intro pre hnd
    rw [List.foldl_cons]
    have hknotin : k ∉ pre := by
      intro hc
      have := List.disjoint_of_nodup_append hnd
      exact this hc (by simp)
    rw [valuesAdd_not_mem _ k (f k) (by
      intro hc
      simp only [List.map_map] at hc
      have : k ∈ pre := by
        have heq : (Prod.fst ∘ fun k => (k, [f k])) = id := rfl
        rw [heq, List.map_id] at hc
        exact hc
      exact hknotin this)]
    have hstep : (pre.map fun k => (k, [f k])) ++ [(k, [f k])] =
        (pre ++ [k]).map fun k => (k, [f k]) := by
      simp
    rw [hstep, ih (pre ++ [k]) (by simpa using hnd)]
    simp

theorem lookup_map_pair (g : String → List String) :
    ∀ (ks : List String) (k : String), k ∈ ks → ks.Nodup →
    (ks.map fun x => (x, g x)).lookup k = some (g k) := by
  intro ks
  induction ks with
  | nil => intro k hk _; simp at hk
  | cons a rest ih =>
    intro k hk hnd
    simp only [List.map_cons, List.lookup_cons]
    by_cases hak : k = a
    · subst hak
      simp
    · have : (k == a) = false := by simp [hak]
      rw [this]
      rcases List.mem_cons.1 hk with rfl | hk'
      · exact absurd rfl hak
      · exact ih k hk' (List.nodup_cons.1 hnd).2

theorem flatten_map_singleton {α β : Type} (g : α → β) (l : List α) :
    (l.map fun x => [g x]).flatten = l.map g := by
  induction l with
  | nil => rfl
  | cons a rest ih => simp [ih]

theorem createSignString_eq (fp : List (String × String)) (hnd : (fp.map Prod.fst).Nodup) :
    createSignString fp = String.intercalate "&" ((sortStrings (fp.map Prod.fst)).map
      fun k => queryEscape k ++ "=" ++ queryEscape ((fp.lookup k).getD "")) := by
  by_cases hemp : fp.length = 0
  · have hfp : fp = [] := List.length_eq_zero.1 hemp
    subst hfp
    rfl
  · simp only [createSignString]
    rw [if_neg hemp]
    set keys := sortStrings (fp.map Prod.fst) with hkeys
    set f : String → String := fun key => (fp.lookup key).getD "" with hf
    have hknd : keys.Nodup := (sortStrings_perm (fp.map Prod.fst)).symm.nodup hnd
    have hbuild : keys.foldl (fun acc key => valuesAdd acc key (f key)) [] =
        keys.map fun k => (k, [f k]) := by
      have h := foldl_valuesAdd f keys [] (by simpa using hknd)
      simpa using h
    rw [hbuild]
    simp only [valuesEncode]
    have hfst : (keys.map fun k => (k, [f k])).map Prod.fst = keys := by
      rw [List.map_map]
      exact List.map_id'' (fun _ => rfl) keys
    rw [hfst]
    rw [sortStrings_of_sorted keys (sortStrings_sorted _)]
    have hmapcong : keys.map (fun k => (((keys.map fun x => (x, [f x])).lookup k).getD []).map
        fun v => queryEscape k ++ "=" ++ queryEscape v) =
        keys.map fun k => [queryEscape k ++ "=" ++ queryEscape (f k)] := by
      apply List.map_congr_left
      intro k hk
      rw [lookup_map_pair (fun x => [f x]) keys k hk hknd]
      rfl
    rw [hmapcong, flatten_map_singleton]

theorem filterParameters_eq_map (params : List (String × GoValue)) :
    filterParameters params = (params.filter fun kv =>
      kv.1 ≠ "sign" ∧ kv.2 ≠ GoValue.vNil ∧ goString kv.2 ≠ "" ∧ goString kv.2 ≠ "0").map
      fun kv => (kv.1, goString kv.2) := by
  induction params with
  | nil => rfl
  | cons kv rest ih =>
    simp only [filterParameters, List.filterMap_cons, List.filter_cons] at ih ⊢
    by_cases h1 : kv.1 = "sign" ∨ kv.2 = GoValue.vNil
    · rw [if_pos h1]
      have hcond : decide (kv.1 ≠ "sign" ∧ kv.2 ≠ GoValue.vNil ∧ goString kv.2 ≠ "" ∧
          goString kv.2 ≠ "0") = false := by
        rcases h1 with h | h <;> simp [h]
      rw [hcond]
      simpa using ih
    · rw [if_neg h1]
      push_neg at h1
      by_cases h2 : goString kv.2 ≠ "" ∧ goString kv.2 ≠ "0"
      · rw [if_pos h2]
        have hcond : decide (kv.1 ≠ "sign" ∧ kv.2 ≠ GoValue.vNil ∧ goString kv.2 ≠ "" ∧
            goString kv.2 ≠ "0") = true := by
          simp [h1.1, h1.2, h2.1, h2.2]
        rw [hcond]
        simpa using ih
      · rw [if_neg h2]
        have hcond : decide (kv.1 ≠ "sign" ∧ kv.2 ≠ GoValue.vNil ∧ goString kv.2 ≠ "" ∧
            goString kv.2 ≠ "0") = false := by
          simp only [decide_eq_false_iff_not]
          intro hc
          exact h2 ⟨hc.2.2.1, hc.2.2.2⟩
        rw [hcond]
        simpa using ih

theorem lookup_map_snd (al : List (String × GoValue)) (g : GoValue → String) (k : String) :
    (al.map fun kv => (kv.1, g kv.2)).lookup k = (al.lookup k).map g := by
  induction al with
  | nil => rfl
  | cons a rest ih =>
    obtain ⟨a1, a2⟩ := a
    simp only [List.map_cons, List.lookup_cons]
    by_cases hka : k = a1
    · subst hka
      simp
    · have hbeq : (k == a1) = false := by simp [hka]
      rw [hbeq]
      exact ih

theorem lookup_exists_of_mem_keys (al : List (String × GoValue)) (k : String)
    (h : k ∈ al.map Prod.fst) : ∃ v, al.lookup k = some v := by
  induction al with
  | nil => simp at h
  | cons a rest ih =>
    obtain ⟨a1, a2⟩ := a
    simp only [List.map_cons, List.mem_cons] at h
    simp only [List.lookup_cons]
    by_cases hka : k = a1
    · subst hka
      simp
    · have hbeq : (k == a1) = false := by simp [hka]
      rw [hbeq]
      rcases h with h | h
      · exact absurd h hka
      · exact ih h

theorem canonical_eq (params : List (String × GoValue))
    (h : (params.map Prod.fst).Nodup) :
    createSignString (filterParameters params) = specCanonicalAmended params := by
  have hF1 := filterParameters_eq_map params
  have hfst : (filterParameters params).map Prod.fst =
      (params.filter fun kv => kv.1 ≠ "sign" ∧ kv.2 ≠ GoValue.vNil ∧
        goString kv.2 ≠ "" ∧ goString kv.2 ≠ "0").map Prod.fst := by
    rw [hF1, List.map_map]
    rfl
  have hnd_fp : ((filterParameters params).map Prod.fst).Nodup := by
    rw [hfst]
    exact ((List.filter_sublist params).map Prod.fst).nodup h
  rw [createSignString_eq _ hnd_fp]
  simp only [specCanonicalAmended]
  rw [hfst]
  apply congrArg (String.intercalate "&")
  apply List.map_congr_left
  intro k hk
  have hk' : k ∈ (params.filter fun kv => kv.1 ≠ "sign" ∧ kv.2 ≠ GoValue.vNil ∧
      goString kv.2 ≠ "" ∧ goString kv.2 ≠ "0").map Prod.fst :=
    (sortStrings_perm _).subset hk
  obtain ⟨v, hv⟩ := lookup_exists_of_mem_keys _ k hk'
  have hlk : (filterParameters params).lookup k = some (goString v) := by
    rw [hF1, lookup_map_snd, hv]
    rfl
  rw [hlk, hv]
  rfl

/-- C1 (amended): for every parameter map with no duplicate keys,
`SignParameters` signs exactly the canonical string obtained by
dropping `sign`-keyed entries, nil-valued entries, and entries whose
value stringifies to empty or `"0"`, stringifying the rest, sorting
keys ascending, and joining URL-form-encoded pairs with `&`; on the
spec's test-vector map this equals `Sign` over the bytes of
`a=1&b=2`. -/
theorem signParameters_canonical (r : RSAAuth) (params : List (String × GoValue))
    (h : (params.map Prod.fst).Nodup) :
    r.SignParameters params = r.Sign (utf8Bytes (specCanonicalAmended params)) ∧
    r.SignParameters exampleParams = r.Sign (utf8Bytes "a=1&b=2") := by
  constructor
  · show r.Sign (utf8Bytes (createSignString (filterParameters params))) = _
    rw [canonical_eq params h]
  · show r.Sign (utf8Bytes (createSignString (filterParameters exampleParams))) = _
    rw [canonical_eq exampleParams (by decide)]
    rw [show specCanonicalAmended exampleParams = "a=1&b=2" by decide]

theorem signParameters_canonical_witness :
    (bigAuth.SignParameters [("a", .vString "1")] =
      bigAuth.Sign (utf8Bytes (specCanonicalAmended [("a", .vString "1")]))) ∧
    bigAuth.SignParameters exampleParams = bigAuth.Sign (utf8Bytes "a=1&b=2") :=
  signParameters_canonical bigAuth [("a", .vString "1")] (by decide)

set_option maxRecDepth 100000 in
/-- C1 counterexample: the claim's canonicalization (which never drops
nil values, so a nil entry would contribute `x=%3Cnil%3E`) disagrees
with what `SignParameters` actually signs on a map with a nil value:
the code drops the entry and signs the empty string.  The engine's
private exponent is small enough for the kernel to evaluate both
signatures. -/
theorem signParameters_claim_counterexample :
    RSAAuth.SignParameters cheapAuth [("x", .vNil)] ≠
      RSAAuth.Sign cheapAuth (utf8Bytes (specCanonicalClaimC1 [("x", .vNil)])) := by
  decide

/-- C10: nil-valued entries are removed during filtering before any
string conversion: filtering a map equals filtering the map with all
nil entries erased, and a lone nil entry contributes nothing. -/
theorem filterParameters_drops_nil (params : List (String × GoValue)) (k : String) :
    filterParameters params = filterParameters (params.filter fun kv => kv.2 ≠ .vNil) ∧
    filterParameters [(k, .vNil)] = [] := by
  constructor
  · rw [filterParameters_eq_map, filterParameters_eq_map]
    rw [List.filter_filter]
    congr 1
    apply List.filter_congr
    intro kv _
    by_cases hnil : kv.2 = GoValue.vNil
    · simp [hnil]
    · simp [hnil]
  · rw [filterParameters_eq_map]
    simp
